import Mathlib

/-!
Shallow embedding of the `lasm` assembler (`main.go`) and proofs about it.

Strings are modelled as `List Char` (`Str`), at rune granularity.  Go's
`map[string]int` tag table is modelled as a function `Str → Option Nat`
updated in source order, which gives the same last-definition-wins
semantics.  Fallible Go functions returning `(value, error)` become
`Except AsmError _`; the `panic` inside `convertToHexAndFormat` becomes
`Option`.  Machine integers (`int` from `strconv.Atoi`/`ParseInt` with
64-bit word size) are modelled as `Int` with the explicit
`[-2^63, 2^63-1]` range check that `strconv` performs.
-/

set_option maxHeartbeats 1000000
set_option maxRecDepth 100000

deriving instance DecidableEq for Except

namespace Lasm

/-- Strings at rune granularity. -/
abbrev Str := List Char

/-- Convert a Lean string literal to the model's string type. -/
def str (s : String) : Str := s.data

/-- Whitespace as in Go's `unicode.IsSpace`, restricted to ASCII. -/
def isSpace (c : Char) : Bool :=
  c = ' ' || c = '\t' || c = '\n' || c = Char.ofNat 11 || c = Char.ofNat 12 || c = '\r'

/-- ASCII decimal digit. -/
def isDigitCh (c : Char) : Bool := '0' ≤ c && c ≤ '9'

/-- Binary digit. -/
def isBit (c : Char) : Bool := c = '0' || c = '1'

/-- Go `strings.HasPrefix p s` (argument order: pattern first). -/
def beginsWith : Str → Str → Bool
  | [], _ => true
  | _ :: _, [] => false
  | p :: ps, c :: cs => p = c && beginsWith ps cs

/-- Remove trailing characters satisfying `isSpace`. -/
def dropTrailing : Str → Str
  | [] => []
  | c :: rest =>
    match dropTrailing rest with
    | [] => if isSpace c then [] else [c]
    | r => c :: r

/-- Go `strings.TrimSpace`: strip leading and trailing whitespace. -/
def trimSpace (s : Str) : Str := dropTrailing (s.dropWhile isSpace)

/-- Helper for `fields`: `acc` holds the current word reversed. -/
def fieldsAux : Str → Str → List Str
  | [], acc => if acc = [] then [] else [acc.reverse]
  | c :: rest, acc =>
    if isSpace c then
      if acc = [] then fieldsAux rest [] else acc.reverse :: fieldsAux rest []
    else fieldsAux rest (c :: acc)

/-- Go `strings.Fields`: split around runs of whitespace. -/
def fields (s : Str) : List Str := fieldsAux s []

/-- Go `strings.Join parts " "`. -/
def joinSpace : List Str → Str
  | [] => []
  | [x] => x
  | x :: y :: ys => x ++ ' ' :: joinSpace (y :: ys)

/-- Digit-printing worker for base `b2 + 2`, most significant digit first.
The first `Nat` is fuel making the recursion structural; it is always
instantiated at the number itself, which bounds the digit count. -/
def toDigitsRec (b2 : Nat) (digit : Nat → Char) : Nat → Nat → Str → Str
  | _, 0, acc => acc
  | 0, _ + 1, acc => acc
  | fuel + 1, n + 1, acc =>
    toDigitsRec b2 digit fuel ((n + 1) / (b2 + 2)) (digit ((n + 1) % (b2 + 2)) :: acc)

/-- Digits of `n` in base `b2 + 2`, most significant first (empty for 0). -/
def toDigitsAux (b2 : Nat) (digit : Nat → Char) (n : Nat) (acc : Str) : Str :=
  toDigitsRec b2 digit n n acc

/-- Number of base-`b2 + 2` digits of `n` (0 for 0); proof-side only. -/
def sizeB (b2 : Nat) (n : Nat) : Nat :=
  if h : n = 0 then 0 else sizeB b2 (n / (b2 + 2)) + 1
termination_by n
decreasing_by exact Nat.div_lt_self (Nat.pos_of_ne_zero h) (by omega)

/-- Binary digit character. -/
def binDigit (n : Nat) : Char := if n = 1 then '1' else '0'

/-- Decimal digit character. -/
def decDigit (n : Nat) : Char := Char.ofNat ('0'.toNat + n)

/-- Uppercase hexadecimal digit character, as Go's `%X`. -/
def hexDigit (n : Nat) : Char :=
  if n < 10 then Char.ofNat ('0'.toNat + n) else Char.ofNat ('A'.toNat + (n - 10))

/-- Binary digits of `n`, `"0"` for zero (Go `%b` on a `Nat`). -/
def natToBin (n : Nat) : Str := if n = 0 then ['0'] else toDigitsAux 0 binDigit n []

/-- Decimal digits of `n`, `"0"` for zero. -/
def natToDec (n : Nat) : Str := if n = 0 then ['0'] else toDigitsAux 8 decDigit n []

/-- Uppercase hexadecimal digits of `n`, `"0"` for zero (Go `%X` on a `Nat`). -/
def natToHex (n : Nat) : Str := if n = 0 then ['0'] else toDigitsAux 14 hexDigit n []

/-- Left-pad `s` with `c` to length at least `w`. -/
def padLeft (c : Char) (w : Nat) (s : Str) : Str := List.replicate (w - s.length) c ++ s

/-- Go `fmt.Sprintf("%08b", v)` on an `int`: zero-padded to total width 8,
the sign counting toward the width and the zero padding coming after it. -/
def formatBin8 (v : Int) : Str :=
  if v < 0 then '-' :: padLeft '0' 7 (natToBin v.natAbs)
  else padLeft '0' 8 (natToBin v.toNat)

/-- Go `fmt.Sprintf("%04X", v)` on an `int64`. -/
def formatHex4 (v : Int) : Str :=
  if v < 0 then '-' :: padLeft '0' 3 (natToHex v.natAbs)
  else padLeft '0' 4 (natToHex v.toNat)

/-- Numeric value of a digit string (most significant first), base 10. -/
def decVal (s : Str) : Nat := s.foldl (fun a c => a * 10 + (c.toNat - '0'.toNat)) 0

/-- Numeric value of a bit string (most significant first), base 2. -/
def binVal (s : Str) : Nat := s.foldl (fun a c => a * 2 + (if c = '1' then 1 else 0)) 0

/-- Split the optional single leading sign of a numeral, as Go `strconv`
does: returns (sign, remaining characters). -/
def splitSign : Str → Int × Str
  | '+' :: rest => (1, rest)
  | '-' :: rest => (-1, rest)
  | s => (1, s)

/-- Go `strconv.Atoi` (`ParseInt` base 10, 64-bit word): optional single
sign, one or more ASCII digits, value within `[-2^63, 2^63-1]`. -/
def atoi (s : Str) : Option Int :=
  let p := splitSign s
  if p.2 ≠ [] && p.2.all isDigitCh then
    let v : Int := p.1 * (decVal p.2 : Nat)
    if -(2 ^ 63) ≤ v ∧ v ≤ 2 ^ 63 - 1 then some v else none
  else none

/-- Go `strconv.ParseInt(s, 2, 64)`: optional single sign, one or more
binary digits, value within the signed 64-bit range. -/
def parseBin2 (s : Str) : Option Int :=
  let p := splitSign s
  if p.2 ≠ [] && p.2.all isBit then
    let v : Int := p.1 * (binVal p.2 : Nat)
    if -(2 ^ 63) ≤ v ∧ v ≤ 2 ^ 63 - 1 then some v else none
  else none

/-- The error values the encoder can report, each carrying the offending
text as in the Go error messages. -/
inductive AsmError where
  /-- `invalid instruction format: %s` -/
  | invalidFormat (text : Str)
  /-- `unknown opcode: %s` -/
  | unknownOpcode (tok : Str)
  /-- `invalid destination: %s` -/
  | invalidDestination (tok : Str)
  /-- `unknown tag: %s` -/
  | unknownTag (name : Str)
  /-- `binary data should be 8 bits long: %s` -/
  | binaryDataLength (rest : Str)
  /-- `invalid decimal data: %s` -/
  | invalidDecimal (tok : Str)
deriving DecidableEq, Repr

/-- The tag table (`map[string]int` in Go). -/
abbrev Tags := Str → Option Nat

/-- The opcode table from `config.json` (`cfg.Opcodes`), external input. -/
abbrev Opcodes := Str → Option Str

/-- Go `isComment`: line starts with `//`. -/
def isComment (line : Str) : Bool := beginsWith (str "//") line

/-- Go `isTag`: line starts with `#`. -/
def isTag (line : Str) : Bool := beginsWith (str "#") line

/-- Go `isDestination`. -/
def isDestination (part : Str) : Bool := part = str "R0" || part = str "R1"

/-- Go `processDestination`. -/
def processDestination (dest : Str) : Except AsmError Str :=
  if dest = str "R0" then .ok (str "0")
  else if dest = str "R1" then .ok (str "1")
  else .error (.invalidDestination dest)

/-- Go `processTag`: strip the `#`, look the name up, render the address
with `%08b`. -/
def processTag (data : Str) (tags : Tags) : Except AsmError Str :=
  let name := data.drop 1
  match tags name with
  | none => .error (.unknownTag name)
  | some address => .ok (formatBin8 (Int.ofNat address))

/-- Go `processBinOrDecData`: `0b`-prefixed data must have exactly 8
characters after the marker and is then used verbatim; anything else is
parsed with `strconv.Atoi` and rendered with `%08b`. -/
def processBinOrDecData (data : Str) : Except AsmError Str :=
  if beginsWith (str "0b") data then
    let rest := data.drop 2
    if rest.length ≠ 8 then .error (.binaryDataLength rest)
    else .ok rest
  else
    match atoi data with
    | none => .error (.invalidDecimal data)
    | some decimal => .ok (formatBin8 decimal)

/-- Go `processData`. -/
def processData (data : Str) (tags : Tags) : Except AsmError Str :=
  if beginsWith (str "#") data then processTag data tags
  else processBinOrDecData data

/-- Go `getDestAndData`, on the full token list (mnemonic included).
Empty results stand for Go's empty strings (fields not yet defaulted). -/
def getDestAndData (parts : List Str) : Except AsmError (Str × Str) :=
  match parts with
  | [_] => .ok ([], [])
  | [_, p1] =>
    if isDestination p1 then (processDestination p1).map (fun d => (d, []))
    else .ok ([], p1)
  | [_, p1, p2] => (processDestination p1).map (fun d => (d, p2))
  | _ => .error (.invalidFormat (joinSpace parts))

/-- Go `assembleInstruction` (its printing side effects dropped). -/
def assembleInstruction (opcodes : Opcodes) (tags : Tags) (instruction : Str) :
    Except AsmError Str :=
  let parts := fields instruction
  match parts with
  | [] => .error (.invalidFormat instruction)
  | p0 :: _ =>
    match opcodes p0 with
    | none => .error (.unknownOpcode p0)
    | some opcode =>
      match getDestAndData parts with
      | .error e => .error e
      | .ok dd =>
        let dest := if dd.1 = [] then str "0" else dd.1
        match dd.2 with
        | [] => .ok (opcode ++ dest ++ List.replicate 8 '0')
        | data =>
          match processData data tags with
          | .error e => .error e
          | .ok d => .ok (opcode ++ dest ++ d)

/-- Go `assembleProgram`: the accumulated output list plus the
`hadError` flag (set on any per-line failure, processing continuing). -/
def assembleProgram (opcodes : Opcodes) (instructions : List Str) (tags : Tags) :
    List Str × Bool :=
  instructions.foldl
    (fun acc instr =>
      match assembleInstruction opcodes tags instr with
      | .error _ => (acc.1, true)
      | .ok program => (acc.1 ++ [program], acc.2))
    ([], false)

/-- The scanner state of Go `parse`. -/
structure ParseState where
  instructions : List Str
  tags : Tags
  lineNum : Nat

/-- One iteration of the scan loop in Go `parse`. -/
def parseLine (st : ParseState) (raw : Str) : ParseState :=
  let line := trimSpace raw
  if line.isEmpty || isComment line then st
  else if isTag line then
    { st with tags := fun t => if t = line.drop 1 then some st.lineNum else st.tags t }
  else
    { st with instructions := st.instructions ++ [line], lineNum := st.lineNum + 1 }

/-- Go `parse`: the first pass over the source lines. -/
def parse (lines : List Str) : List Str × Tags :=
  let st := lines.foldl parseLine ⟨[], fun _ => none, 0⟩
  (st.instructions, st.tags)

/-- One output row of the hex image for an encoded instruction. -/
def hexRow (instr : Str) : Option Str :=
  (parseBin2 instr).map (fun v => formatHex4 v ++ [';', '\n'])

/-- The `0000;` filler row. -/
def fillRow : Str := str "0000;\n"

/-- Go `convertToHexAndFormat`; `none` models the `panic` on a bit string
`strconv.ParseInt` rejects. -/
def convertToHexAndFormat (program : List Str) : Option Str := do
  let rows ← program.mapM hexRow
  some (rows.flatten ++ (List.replicate (64 - program.length) fillRow).flatten)

/-- The output-producing tail of Go `main`: parse, assemble, and produce
the hex image only when the `hadError` flag stayed clear. -/
def mainOutput (opcodes : Opcodes) (lines : List Str) : Option Str :=
  let parsed := parse lines
  let assembled := assembleProgram opcodes parsed.1 parsed.2
  if assembled.2 then none
  else convertToHexAndFormat assembled.1

/-- Classification predicate for lines kept as instructions: non-blank
after trimming, not a comment, not a tag definition. -/
def keepLine (t : Str) : Bool := !(t.isEmpty || isComment t || isTag t)

/-- The trimmed instruction lines of a source, in source order. -/
def instrLines (lines : List Str) : List Str :=
  (lines.map trimSpace).filter keepLine

/-- Spec-side description of the first pass for one tag name, following
the spec's words: a running instruction counter starts at 0; a tag
definition of `name` binds it to the current counter value (a later
definition overwriting an earlier one); an instruction line increments
the counter; blanks and comments are ignored. -/
def specTagStep (name : Str) (p : Nat × Option Nat) (raw : Str) : Nat × Option Nat :=
  let line := trimSpace raw
  if line.isEmpty || isComment line then p
  else if isTag line then (if line.drop 1 = name then (p.1, some p.1) else p)
  else (p.1 + 1, p.2)

/-- Spec-side scan of a whole source for one tag name. -/
def specTagScan (name : Str) (lines : List Str) : Nat × Option Nat :=
  lines.foldl (specTagStep name) (0, none)

/-- The address the spec assigns to `name`: the running-counter value at
its last definition, i.e. the address of the next instruction line. -/
def specTagAddress (lines : List Str) (name : Str) : Option Nat :=
  (specTagScan name lines).2

/-- Uppercase hexadecimal digit character set. -/
def isUpperHexDigit (c : Char) : Bool := isDigitCh c || ('A' ≤ c && c ≤ 'F')

lemma sizeB_zero (b2 : Nat) : sizeB b2 0 = 0 := by
  rw [sizeB]
  rfl

lemma sizeB_of_ne_zero (b2 : Nat) {n : Nat} (h : n ≠ 0) :
    sizeB b2 n = sizeB b2 (n / (b2 + 2)) + 1 := by
  rw [sizeB]
  simp [h]

lemma toDigitsRec_length (b2 : Nat) (digit : Nat → Char) :
    ∀ fuel n acc, n ≤ fuel →
      (toDigitsRec b2 digit fuel n acc).length = sizeB b2 n + acc.length := by
  intro fuel
  induction fuel with
  | zero =>
    intro n acc h
    obtain rfl := Nat.le_zero.mp h
    simp [toDigitsRec, sizeB_zero]
  | succ f ih =>
    intro n acc h
    cases n with
    | zero => simp [toDigitsRec, sizeB_zero]
    | succ m =>
      have hlt : (m + 1) / (b2 + 2) < m + 1 := Nat.div_lt_self (Nat.succ_pos m) (by omega)
      rw [toDigitsRec, ih _ _ (by omega), sizeB_of_ne_zero b2 (Nat.succ_ne_zero m)]
      simp
      omega

lemma toDigitsAux_length (b2 : Nat) (digit : Nat → Char) (n : Nat) (acc : Str) :
    (toDigitsAux b2 digit n acc).length = sizeB b2 n + acc.length :=
  toDigitsRec_length b2 digit n n acc le_rfl

lemma sizeB_le_of_lt_pow (b2 : Nat) : ∀ k n, n < (b2 + 2) ^ k → sizeB b2 n ≤ k := by
  intro k
  induction k with
  | zero =>
    intro n h
    simp at h
    simp [h, sizeB_zero]
  | succ k ih =>
    intro n h
    by_cases hn : n = 0
    · simp [hn, sizeB_zero]
    · rw [sizeB_of_ne_zero b2 hn]
      have hdiv : n / (b2 + 2) < (b2 + 2) ^ k := by
        rw [Nat.div_lt_iff_lt_mul (by omega)]
        calc n < (b2 + 2) ^ (k + 1) := h
          _ = (b2 + 2) ^ k * (b2 + 2) := by ring
      exact Nat.succ_le_succ (ih _ hdiv)

lemma succ_le_sizeB_of_pow_le (b2 : Nat) : ∀ k n, (b2 + 2) ^ k ≤ n → k + 1 ≤ sizeB b2 n := by
  intro k
  induction k with
  | zero =>
    intro n h
    simp at h
    rw [sizeB_of_ne_zero b2 (by omega)]
    omega
  | succ k ih =>
    intro n h
    have hp : 0 < (b2 + 2) ^ (k + 1) := pow_pos (by omega) _
    rw [sizeB_of_ne_zero b2 (by omega)]
    have hdiv : (b2 + 2) ^ k ≤ n / (b2 + 2) := by
      rw [Nat.le_div_iff_mul_le (by omega)]
      calc (b2 + 2) ^ k * (b2 + 2) = (b2 + 2) ^ (k + 1) := by ring
        _ ≤ n := h
    exact Nat.succ_le_succ (ih _ hdiv)

lemma natToBin_length (n : Nat) :
    (natToBin n).length = if n = 0 then 1 else sizeB 0 n := by
  unfold natToBin
  split
  · rfl
  · rw [toDigitsAux_length]
    rfl

lemma natToHex_length (n : Nat) :
    (natToHex n).length = if n = 0 then 1 else sizeB 14 n := by
  unfold natToHex
  split
  · rfl
  · rw [toDigitsAux_length]
    rfl

lemma padLeft_length (c : Char) (w : Nat) (s : Str) :
    (padLeft c w s).length = max w s.length := by
  simp [padLeft]
  omega

lemma formatBin8_length_of_lt (n : Nat) (h : n < 256) :
    (formatBin8 (Int.ofNat n)).length = 8 := by
  have hn : ¬ (Int.ofNat n < 0) := not_lt.mpr (Int.ofNat_nonneg n)
  rw [formatBin8, if_neg hn, padLeft_length]
  have h2 : (natToBin (Int.ofNat n).toNat).length ≤ 8 := by
    rw [natToBin_length]
    split
    · omega
    · have : (Int.ofNat n).toNat < (0 + 2) ^ 8 := by simp; omega
      have := sizeB_le_of_lt_pow 0 8 (Int.ofNat n).toNat this
      omega
  omega

lemma formatBin8_length_of_gt (v : Int) (h : 255 < v) :
    8 < (formatBin8 v).length := by
  have hn : ¬ (v < 0) := by omega
  rw [formatBin8, if_neg hn, padLeft_length]
  have hv : (0 + 2) ^ 8 ≤ v.toNat := by simp; omega
  have h1 := succ_le_sizeB_of_pow_le 0 8 v.toNat hv
  rw [natToBin_length]
  have : v.toNat ≠ 0 := by omega
  simp [this]
  omega

lemma formatHex4_length (n : Nat) (h : n < 65536) :
    (formatHex4 (Int.ofNat n)).length = 4 := by
  have hn : ¬ (Int.ofNat n < 0) := not_lt.mpr (Int.ofNat_nonneg n)
  rw [formatHex4, if_neg hn, padLeft_length]
  have h2 : (natToHex (Int.ofNat n).toNat).length ≤ 4 := by
    rw [natToHex_length]
    split
    · omega
    · have : (Int.ofNat n).toNat < (14 + 2) ^ 4 := by simp; omega
      have := sizeB_le_of_lt_pow 14 4 (Int.ofNat n).toNat this
      omega
  omega

lemma hexDigit_upperHex : ∀ m, m < 16 → isUpperHexDigit (hexDigit m) = true := by decide

lemma toDigitsRec_all (b2 : Nat) (digit : Nat → Char) (P : Char → Bool)
    (hd : ∀ m, m < b2 + 2 → P (digit m) = true) :
    ∀ fuel n acc, acc.all P = true → (toDigitsRec b2 digit fuel n acc).all P = true := by
  intro fuel
  induction fuel with
  | zero =>
    intro n acc h
    cases n <;> exact h
  | succ f ih =>
    intro n acc h
    cases n with
    | zero => exact h
    | succ m =>
      rw [toDigitsRec]
      exact ih _ _ (by simp [h, hd _ (Nat.mod_lt _ (by omega))])

lemma formatHex4_all_upperHex (n : Nat) :
    (formatHex4 (Int.ofNat n)).all isUpperHexDigit = true := by
  have hn : ¬ (Int.ofNat n < 0) := not_lt.mpr (Int.ofNat_nonneg n)
  rw [formatHex4, if_neg hn, padLeft, List.all_append, Bool.and_eq_true]
  refine And.intro ?_ ?_
  · refine List.all_eq_true.mpr ?_
    intro x hx
    rw [List.eq_of_mem_replicate hx]
    decide
  · rw [natToHex]
    split
    · decide
    · exact toDigitsRec_all 14 hexDigit isUpperHexDigit hexDigit_upperHex _ _ _ (by decide)

lemma binVal_foldl_lt : ∀ (s : Str) (a : Nat),
    s.foldl (fun a c => a * 2 + (if c = '1' then 1 else 0)) a < (a + 1) * 2 ^ s.length := by
  intro s
  induction s with
  | nil => intro a; simp
  | cons c cs ih =>
    intro a
    have hb : (if c = '1' then 1 else 0) ≤ 1 := by split <;> omega
    calc (c :: cs).foldl (fun a c => a * 2 + (if c = '1' then 1 else 0)) a
        = cs.foldl (fun a c => a * 2 + (if c = '1' then 1 else 0))
            (a * 2 + (if c = '1' then 1 else 0)) := by simp
      _ < (a * 2 + (if c = '1' then 1 else 0) + 1) * 2 ^ cs.length := ih _
      _ ≤ ((a + 1) * 2) * 2 ^ cs.length := Nat.mul_le_mul_right _ (by omega)
      _ = (a + 1) * 2 ^ (cs.length + 1) := by ring
      _ = (a + 1) * 2 ^ (c :: cs).length := by simp

lemma binVal_lt (s : Str) : binVal s < 2 ^ s.length := by
  have h := binVal_foldl_lt s 0
  simpa [binVal] using h

lemma fieldsAux_ne_nil : ∀ (s acc : Str), acc ≠ [] → fieldsAux s acc ≠ [] := by
  intro s
  induction s with
  | nil =>
    intro acc h
    simp only [fieldsAux, if_neg h]
    exact List.cons_ne_nil _ _
  | cons c cs ih =>
    intro acc h
    by_cases hs : isSpace c = true
    · simp only [fieldsAux, hs, if_true, if_neg h]
      exact List.cons_ne_nil _ _
    · simp only [fieldsAux, if_neg hs]
      exact ih _ (List.cons_ne_nil c acc)

lemma fieldsAux_mem_ne_nil : ∀ (s acc t : Str), t ∈ fieldsAux s acc → t ≠ [] := by
  intro s
  induction s with
  | nil =>
    intro acc t ht
    by_cases h : acc = []
    · simp [fieldsAux, h] at ht
    · simp only [fieldsAux, if_neg h, List.mem_singleton] at ht
      subst ht
      simpa using h
  | cons c cs ih =>
    intro acc t ht
    by_cases hs : isSpace c = true
    · by_cases h : acc = []
      · rw [fieldsAux, if_pos hs, if_pos h] at ht
        exact ih [] t ht
      · rw [fieldsAux, if_pos hs, if_neg h] at ht
        rcases List.mem_cons.mp ht with rfl | ht'
        · simpa using h
        · exact ih [] t ht'
    · rw [fieldsAux, if_neg hs] at ht
      exact ih (c :: acc) t ht

lemma fields_mem_ne_nil (s t : Str) (h : t ∈ fields s) : t ≠ [] :=
  fieldsAux_mem_ne_nil s [] t h

lemma fields_cons_ne_nil (a : Char) (as : Str) (ha : isSpace a = false) :
    fields (a :: as) ≠ [] := by
  unfold fields
  rw [fieldsAux, if_neg (by simp [ha])]
  exact fieldsAux_ne_nil as [a] (List.cons_ne_nil a [])

lemma dropWhile_head_not (p : Char → Bool) :
    ∀ (s : Str) (a : Char) (as : Str), s.dropWhile p = a :: as → p a = false := by
  intro s
  induction s with
  | nil => intro a as h; simp [List.dropWhile] at h
  | cons c cs ih =>
    intro a as h
    rw [List.dropWhile] at h
    cases hp : p c with
    | true =>
      rw [hp] at h
      exact ih a as h
    | false =>
      rw [hp] at h
      injection h with h1 h2
      subst h1
      exact hp

lemma dropTrailing_cons (c : Char) (rest : Str) :
    dropTrailing (c :: rest) = [] ∨ ∃ r, dropTrailing (c :: rest) = c :: r := by
  rw [dropTrailing]
  cases hd : dropTrailing rest with
  | nil =>
    by_cases hs : isSpace c = true
    · left
      simp [hs]
    · right
      exact ⟨[], by simp [hs]⟩
  | cons x xs => exact Or.inr ⟨x :: xs, rfl⟩

lemma trimSpace_head (s : Str) (a : Char) (as : Str) (h : trimSpace s = a :: as) :
    isSpace a = false := by
  unfold trimSpace at h
  cases hd : s.dropWhile isSpace with
  | nil =>
    rw [hd] at h
    simp [dropTrailing] at h
  | cons b bs =>
    rw [hd] at h
    have hb : isSpace b = false := dropWhile_head_not isSpace s b bs hd
    rcases dropTrailing_cons b bs with h0 | ⟨r, hr⟩
    · rw [h0] at h
      cases h
    · rw [hr] at h
      injection h with h1 h2
      subst h1
      exact hb

lemma foldl_parseLine_instructions :
    ∀ (lines : List Str) (st : ParseState),
      (lines.foldl parseLine st).instructions = st.instructions ++ instrLines lines := by
  intro lines
  induction lines with
  | nil => intro st; simp [instrLines]
  | cons raw rest ih =>
    intro st
    rw [List.foldl_cons, ih]
    show (parseLine st raw).instructions ++ instrLines rest
        = st.instructions ++ instrLines (raw :: rest)
    unfold parseLine instrLines keepLine
    simp only [List.map_cons, List.filter_cons]
    by_cases h1 : ((trimSpace raw).isEmpty || isComment (trimSpace raw)) = true
    · simp [h1]
    · by_cases h2 : isTag (trimSpace raw) = true
      · simp [h1, h2]
      · simp [h1, h2]

lemma parse_instructions (lines : List Str) : (parse lines).1 = instrLines lines := by
  show (lines.foldl parseLine ⟨[], fun _ => none, 0⟩).instructions = instrLines lines
  rw [foldl_parseLine_instructions]
  rfl

lemma parseLine_tags_spec (name : Str) (st : ParseState) (raw : Str) :
    ((parseLine st raw).lineNum, (parseLine st raw).tags name)
      = specTagStep name (st.lineNum, st.tags name) raw := by
  unfold parseLine specTagStep
  by_cases h1 : ((trimSpace raw).isEmpty || isComment (trimSpace raw)) = true
  · simp [h1]
  · by_cases h2 : isTag (trimSpace raw) = true
    · have hd3 : (trimSpace raw).drop 1 = (trimSpace raw).tail := List.drop_one _
      by_cases h3 : (trimSpace raw).tail = name
      · simp [h1, h2, hd3, h3]
      · have h3' : ¬ name = (trimSpace raw).tail := fun h => h3 h.symm
        simp [h1, h2, hd3, h3, h3']
    · simp [h1, h2]

lemma foldl_parseLine_tags (name : Str) :
    ∀ (lines : List Str) (st : ParseState),
      ((lines.foldl parseLine st).lineNum, (lines.foldl parseLine st).tags name)
        = lines.foldl (specTagStep name) (st.lineNum, st.tags name) := by
  intro lines
  induction lines with
  | nil => intro st; rfl
  | cons raw rest ih =>
    intro st
    rw [List.foldl_cons, List.foldl_cons, ← parseLine_tags_spec name st raw]
    exact ih (parseLine st raw)

lemma parse_tags (lines : List Str) (name : Str) :
    (parse lines).2 name = specTagAddress lines name := by
  have h := foldl_parseLine_tags name lines ⟨[], fun _ => none, 0⟩
  exact congrArg Prod.snd h

lemma except_toOption_ok (p : Str) :
    (Except.ok p : Except AsmError Str).toOption = some p := rfl

lemma except_toOption_error (e : AsmError) :
    (Except.error e : Except AsmError Str).toOption = none := rfl

lemma except_isOk_ok (p : Str) :
    (Except.ok p : Except AsmError Str).isOk = true := rfl

lemma except_isOk_error (e : AsmError) :
    (Except.error e : Except AsmError Str).isOk = false := rfl

lemma assembleProgram_fold (opcodes : Opcodes) (tags : Tags) :
    ∀ (instrs : List Str) (acc : List Str) (flag : Bool),
      instrs.foldl
          (fun acc instr =>
            match assembleInstruction opcodes tags instr with
            | .error _ => (acc.1, true)
            | .ok program => (acc.1 ++ [program], acc.2))
          (acc, flag)
        = (acc ++ instrs.filterMap (fun i => (assembleInstruction opcodes tags i).toOption),
           flag || instrs.any (fun i => !(assembleInstruction opcodes tags i).isOk)) := by
  intro instrs
  induction instrs with
  | nil => intro acc flag; simp
  | cons i rest ih =>
    intro acc flag
    rw [List.foldl_cons]
    cases h : assembleInstruction opcodes tags i with
    | error e =>
      simp only [h, List.filterMap_cons, List.any_cons, except_toOption_error, except_isOk_error]
      rw [ih]
      simp
    | ok p =>
      simp only [h, List.filterMap_cons, List.any_cons, except_toOption_ok, except_isOk_ok]
      rw [ih]
      simp

lemma assembleProgram_eq (opcodes : Opcodes) (instrs : List Str) (tags : Tags) :
    assembleProgram opcodes instrs tags
      = (instrs.filterMap (fun i => (assembleInstruction opcodes tags i).toOption),
         instrs.any (fun i => !(assembleInstruction opcodes tags i).isOk)) := by
  unfold assembleProgram
  rw [assembleProgram_fold]
  simp

lemma filterMap_of_all_isSome {α β : Type} (f : α → Option β) :
    ∀ (l : List α), (∀ i ∈ l, (f i).isSome = true) →
      (l.filterMap f).length = l.length
      ∧ ∀ k : Nat, (l.filterMap f)[k]? = l[k]?.bind f := by
  intro l
  induction l with
  | nil => intro h; simp
  | cons a l ih =>
    intro h
    have ha : (f a).isSome = true := h a (by simp)
    obtain ⟨b, hb⟩ := Option.isSome_iff_exists.mp ha
    have hrest := ih (fun i hi => h i (by simp [hi]))
    rw [List.filterMap_cons, hb]
    constructor
    · simp [hrest.1]
    · intro k
      cases k with
      | zero => simp [hb]
      | succ j => simp [hrest.2 j]

lemma mapM_of_all_eq_some {α β : Type} (f : α → Option β) (g : α → β) :
    ∀ (l : List α), (∀ i ∈ l, f i = some (g i)) → l.mapM f = some (l.map g) := by
  intro l
  induction l with
  | nil => intro h; rfl
  | cons a l ih =>
    intro h
    have ha : f a = some (g a) := h a (by simp)
    have hrest := ih (fun i hi => h i (by simp [hi]))
    rw [List.mapM_cons, ha, hrest]
    rfl

lemma foldl_parseLine_lineNum_eq_length :
    ∀ (lines : List Str) (st : ParseState),
      st.lineNum = st.instructions.length →
      (lines.foldl parseLine st).lineNum = (lines.foldl parseLine st).instructions.length := by
  intro lines
  induction lines with
  | nil => intro st h; exact h
  | cons raw rest ih =>
    intro st h
    rw [List.foldl_cons]
    refine ih (parseLine st raw) ?_
    unfold parseLine
    by_cases h1 : ((trimSpace raw).isEmpty || isComment (trimSpace raw)) = true
    · simpa [h1] using h
    · by_cases h2 : isTag (trimSpace raw) = true
      · simpa [h1, h2] using h
      · simp [h1, h2, h]

lemma parse_length_eq_counter (lines : List Str) (name : Str) :
    (parse lines).1.length = (specTagScan name lines).1 := by
  have hpair := foldl_parseLine_tags name lines ⟨[], fun _ => none, 0⟩
  have hlen := foldl_parseLine_lineNum_eq_length lines ⟨[], fun _ => none, 0⟩ rfl
  have hfst := congrArg Prod.fst hpair
  exact (hlen.symm.trans hfst)

/-- Claim C1 counterexample: the data token `0b22222222` has a remainder
of 8 characters after the `0b` marker, none of which is a binary digit;
the claim demands failure with `binary data should be 8 bits long`, but
the encoder accepts the token and uses `22222222` verbatim as the data
field (the length is all it checks). -/
theorem c1_counterexample :
    processBinOrDecData (str "0b22222222") = .ok (str "22222222")
    ∧ isBit '2' = false := by decide

/-- Claim C1 (amended): for every data token beginning with `0b`, the
encoder fails with `binary data should be 8 bits long` exactly when the
remainder after the `0b` marker is not 8 characters long; every
8-character remainder — binary digits or not — is used verbatim as the
data field. -/
theorem c1_binary_length_only (rest : Str) :
    processBinOrDecData ('0' :: 'b' :: rest)
      = if rest.length = 8 then .ok rest else .error (.binaryDataLength rest) := by
  have hpre : beginsWith (str "0b") ('0' :: 'b' :: rest) = true := rfl
  rw [processBinOrDecData, if_pos hpre]
  by_cases h : rest.length = 8 <;> simp [h]

/-- Claim C2: the first pass binds each tag name to the value of the
running instruction counter at the moment of its definition — the
0-indexed address (among instruction lines only) of the next instruction
line, which for a trailing tag is the total instruction count — with the
last definition in source order winning; the completed table is what the
second pass consults, so forward references resolve.  Stated as a
refinement: the tag table `parse` computes coincides pointwise with the
spec-worded scan `specTagAddress`, the number of parsed instructions
equals the scan's final counter, and the spec's forward-reference and
duplicate-definition examples resolve as described. -/
theorem c2_tag_addresses (lines : List Str) (name : Str) :
    (parse lines).2 name = specTagAddress lines name
    ∧ (parse lines).1.length = (specTagScan name lines).1
    ∧ (parse [str "BRN #end", str "#end", str "BRN #end"]).2 (str "end") = some 1
    ∧ (parse [str "#a", str "ADD", str "#a", str "SUB"]).2 (str "a") = some 1 :=
  ⟨parse_tags lines name, parse_length_eq_counter lines name, by decide, by decide⟩

lemma c8_aux : ∀ m : Fin 256,
    processBinOrDecData (natToDec m.val) = .ok (formatBin8 (Int.ofNat m.val))
    ∧ processBinOrDecData (str "0b" ++ formatBin8 (Int.ofNat m.val))
        = .ok (formatBin8 (Int.ofNat m.val))
    ∧ (formatBin8 (Int.ofNat m.val)).length = 8 := by decide

/-- Claim C8: the decimal token `10` and the binary token `0b00001010`
produce the identical data field `00001010`, and in general, for every
value from 0 to 255, the decimal numeral and the corresponding 8-digit
`0b` binary token encode to the same 8-bit data field. -/
theorem c8_dec_bin_agree (n : Nat) (h : n < 256) :
    processBinOrDecData (natToDec n) = .ok (formatBin8 (Int.ofNat n))
    ∧ processBinOrDecData (str "0b" ++ formatBin8 (Int.ofNat n))
        = .ok (formatBin8 (Int.ofNat n))
    ∧ (formatBin8 (Int.ofNat n)).length = 8
    ∧ processBinOrDecData (str "10") = .ok (str "00001010")
    ∧ processBinOrDecData (str "0b00001010") = .ok (str "00001010") := by
  obtain ⟨h1, h2, h3⟩ := c8_aux ⟨n, h⟩
  exact ⟨h1, h2, h3, by decide, by decide⟩

theorem c8_witness :
    processBinOrDecData (natToDec 10) = .ok (formatBin8 (Int.ofNat 10)) :=
  (c8_dec_bin_agree 10 (by decide)).1

/-- Claim C10 counterexample: `-9223372036854775809` is a negative
decimal integer literal, but it lies outside the signed 64-bit range that
`strconv.Atoi` accepts, so the encoder does fail with
`invalid decimal data` on it, contradicting the claim's universal
"does not fail". -/
theorem c10_counterexample :
    processBinOrDecData (str "-9223372036854775809")
      = .error (.invalidDecimal (str "-9223372036854775809")) := by decide

/-- Claim C10 (amended): for every data token `-ds` with `ds` nonempty
decimal digits of nonzero value with magnitude at most 2^63 (the range
`strconv.Atoi` accepts), the encoder does not fail with
`invalid decimal data`: the token parses and `%08b` renders it as a
signed binary string beginning with `-`, so the data field is not a
string of binary digits (in particular not an 8-bit binary field). -/
theorem c10_negative_decimal (ds : Str) (h1 : ds ≠ []) (h2 : ds.all isDigitCh = true)
    (h3 : 0 < decVal ds) (h4 : (decVal ds : Int) ≤ 2 ^ 63) :
    processBinOrDecData ('-' :: ds) = .ok (formatBin8 (-(decVal ds : Int)))
    ∧ (formatBin8 (-(decVal ds : Int))).head? = some '-'
    ∧ (formatBin8 (-(decVal ds : Int))).all isBit = false := by
  have hneg : (-(decVal ds : Int)) < 0 := by omega
  have hbw : beginsWith (str "0b") ('-' :: ds) = false := rfl
  have hform : formatBin8 (-(decVal ds : Int))
      = '-' :: padLeft '0' 7 (natToBin (-(decVal ds : Int)).natAbs) := by
    rw [formatBin8, if_pos hneg]
  have hatoi : atoi ('-' :: ds) = some (-(decVal ds : Int)) := by
    have hsign : splitSign ('-' :: ds) = (-1, ds) := rfl
    rw [atoi, hsign]
    simp only [h2, Bool.and_true]
    rw [if_pos (by simpa using h1)]
    rw [if_pos (by constructor <;> omega)]
    congr 1
    omega
  refine ⟨?_, ?_, ?_⟩
  · rw [processBinOrDecData, if_neg (by simp [hbw]), hatoi]
  · rw [hform]
    rfl
  · rw [hform]
    simp [isBit]

theorem c10_witness : processBinOrDecData (str "-5") = .ok (str "-0000101") := by
  have h := (c10_negative_decimal (str "5") (by decide) (by decide) (by decide)
    (by decide)).1
  exact h.trans (by decide)

/-- Claim C7: for every data token without a `#` or `0b` marker, the
encoder parses it with `strconv.Atoi` and fails with `invalid decimal
data` exactly when that parse fails; a parsed value is rendered by
`%08b` — binary, zero-padded to a minimum of 8 digits — so values above
255 are not rejected and produce a data field wider than 8 bits
(`999999` included). -/
theorem c7_decimal_data (d : Str) (tags : Tags)
    (hh : beginsWith (str "#") d = false)
    (hb : beginsWith (str "0b") d = false) :
    processData d tags
      = (match atoi d with
         | none => .error (.invalidDecimal d)
         | some v => .ok (formatBin8 v))
    ∧ (∀ v : Int, 0 ≤ v → 8 ≤ (formatBin8 v).length)
    ∧ (∀ v : Int, 255 < v → 8 < (formatBin8 v).length)
    ∧ processBinOrDecData (str "999999") = .ok (str "11110100001000111111") := by
  refine ⟨?_, ?_, fun v hv => formatBin8_length_of_gt v hv, by decide⟩
  · rw [processData, if_neg (by simp [hh]), processBinOrDecData, if_neg (by simp [hb])]
  · intro v hv
    rw [formatBin8, if_neg (by omega), padLeft_length]
    omega

theorem c7_witness :
    processData (str "999999") (fun _ => none)
      = (match atoi (str "999999") with
         | none => Except.error (.invalidDecimal (str "999999"))
         | some v => Except.ok (formatBin8 v)) :=
  (c7_decimal_data (str "999999") (fun _ => none) (by decide) (by decide)).1

/-- Claim C9: every instruction line produced by the first pass is
non-empty (it was kept only after trimming left it non-blank), so
splitting it into whitespace-separated tokens yields at least one token
and the encoder's zero-token `invalid instruction format` branch is
unreachable for parser-produced lines. -/
theorem c9_nonempty_tokens (lines : List Str) (l : Str)
    (h : l ∈ (parse lines).1) : l ≠ [] ∧ fields l ≠ [] := by
  rw [parse_instructions] at h
  unfold instrLines at h
  obtain ⟨hmem, hkeep⟩ := List.mem_filter.mp h
  obtain ⟨raw, hraw, htrim⟩ := List.mem_map.mp hmem
  have hne : l ≠ [] := by
    intro he
    rw [he] at hkeep
    simp [keepLine] at hkeep
  refine ⟨hne, ?_⟩
  cases hl : l with
  | nil => exact absurd hl hne
  | cons a as =>
    exact fields_cons_ne_nil a as (trimSpace_head raw a as (htrim.trans hl))

theorem c9_witness : fields (str "ADD R0 1") ≠ [] :=
  (c9_nonempty_tokens [str "  ADD R0 1 "] (str "ADD R0 1") (by decide)).2

/-- Claim C4: a per-line encoding failure sets the run-level flag while
later lines are still processed — the output program is exactly the
successful encodings in source order, the flag is set exactly when some
line fails — and a set flag suppresses the output artifact. -/
theorem c4_fail_slow (opcodes : Opcodes) (instructions : List Str) (tags : Tags)
    (lines : List Str) :
    (assembleProgram opcodes instructions tags).1
      = instructions.filterMap (fun i => (assembleInstruction opcodes tags i).toOption)
    ∧ ((assembleProgram opcodes instructions tags).2 = true
        ↔ ∃ i ∈ instructions, (assembleInstruction opcodes tags i).isOk = false)
    ∧ ((assembleProgram opcodes (parse lines).1 (parse lines).2).2 = true
        → mainOutput opcodes lines = none) := by
  refine ⟨?_, ?_, ?_⟩
  · rw [assembleProgram_eq]
  · rw [assembleProgram_eq]
    simp [List.any_eq_true]
  · intro h
    unfold mainOutput
    simp [h]

theorem c4_witness : mainOutput (fun _ => none) [str "NOP"] = none :=
  (c4_fail_slow (fun _ => none) [] (fun _ => none) [str "NOP"]).2.2 (by decide)

/-- Claim C6: when every parsed instruction line encodes successfully,
the output program has exactly one instruction per source line that is
non-blank after trimming, not a comment, and not a tag definition; the
failure flag stays clear; and the k-th output instruction is the
encoding of the k-th instruction line, i.e. addresses are consecutive
from 0 in source order. -/
theorem c6_dense_addresses (opcodes : Opcodes) (lines : List Str)
    (h : ∀ i ∈ (parse lines).1,
      (assembleInstruction opcodes (parse lines).2 i).isOk = true) :
    ((assembleProgram opcodes (parse lines).1 (parse lines).2).1).length
        = ((lines.map trimSpace).filter keepLine).length
    ∧ (assembleProgram opcodes (parse lines).1 (parse lines).2).2 = false
    ∧ ∀ k : Nat,
        ((assembleProgram opcodes (parse lines).1 (parse lines).2).1)[k]?
          = ((parse lines).1)[k]?.bind
              (fun i => (assembleInstruction opcodes (parse lines).2 i).toOption) := by
  have hsome : ∀ i ∈ (parse lines).1,
      ((assembleInstruction opcodes (parse lines).2 i).toOption).isSome = true := by
    intro i hi
    have hok := h i hi
    cases hres : assembleInstruction opcodes (parse lines).2 i with
    | ok p => rfl
    | error e =>
      rw [hres, except_isOk_error] at hok
      cases hok
  obtain ⟨hlen, hget⟩ := filterMap_of_all_isSome _ (parse lines).1 hsome
  rw [assembleProgram_eq]
  refine ⟨?_, ?_, ?_⟩
  · show (List.filterMap _ (parse lines).1).length = _
    rw [hlen, parse_instructions]
    rfl
  · show List.any _ _ = false
    rw [List.any_eq_false]
    intro i hi
    simp [h i hi]
  · exact hget

def exOpcodes : Opcodes := fun t =>
  if t = str "LOD" then some (str "0010")
  else if t = str "SUB" then some (str "0011")
  else none

def exLines : List Str :=
  [str "// demo", str "#loop", str "LOD R0 10", str "", str "SUB 1"]

theorem c6_witness :
    ((assembleProgram exOpcodes (parse exLines).1 (parse exLines).2).1).length = 2 :=
  ((c6_dense_addresses exOpcodes exLines (by decide)).1).trans (by decide)

/-- One rendered row of the hex image for an encoded instruction. -/
def realRow (i : Str) : Str := formatHex4 (Int.ofNat (binVal i)) ++ [';', '\n']

lemma parseBin2_of_bits (i : Str) (hne : i ≠ []) (hbits : i.all isBit = true)
    (hlen : i.length ≤ 63) : parseBin2 i = some (Int.ofNat (binVal i)) := by
  obtain ⟨c, cs, rfl⟩ : ∃ c cs, i = c :: cs := by
    cases i with
    | nil => exact absurd rfl hne
    | cons c cs => exact ⟨c, cs, rfl⟩
  have hc : isBit c = true := by
    have := List.all_eq_true.mp hbits c (by simp)
    exact this
  have hsign : splitSign (c :: cs) = (1, c :: cs) := by
    rcases (by simpa [isBit] using hc : c = '0' ∨ c = '1') with rfl | rfl <;> rfl
  have hval : binVal (c :: cs) < 2 ^ 63 := by
    calc binVal (c :: cs) < 2 ^ (c :: cs).length := binVal_lt (c :: cs)
      _ ≤ 2 ^ 63 := Nat.pow_le_pow_right (by omega) hlen
  rw [parseBin2, hsign]
  simp only [hbits, Bool.and_true]
  rw [if_pos (by simp)]
  rw [if_pos (by constructor <;> [omega; omega])]
  congr 1
  simp [Int.ofNat_eq_natCast]

/-- Claim C5: the Hex Serializer renders each encoded instruction as its
base-2 value formatted `%04X` followed by `;` and a newline — 4
uppercase hexadecimal digits whenever the value fits 16 bits — then
appends `0000;` filler rows until the image has 64 rows; for 64 or more
instructions no filler is added and no truncation or error occurs, the
row count being `max (program length) 64` in general (3 instructions
give 3 real rows and 61 filler rows). -/
theorem c5_hex_image (program : List Str)
    (h : ∀ i ∈ program, i ≠ [] ∧ i.all isBit = true ∧ i.length ≤ 63) :
    convertToHexAndFormat program
      = some ((program.map realRow).flatten
          ++ (List.replicate (64 - program.length) fillRow).flatten)
    ∧ (program.map realRow ++ List.replicate (64 - program.length) fillRow).length
        = max program.length 64
    ∧ (64 ≤ program.length → 64 - program.length = 0)
    ∧ ∀ i ∈ program, binVal i < 65536 →
        (formatHex4 (Int.ofNat (binVal i))).length = 4
        ∧ (formatHex4 (Int.ofNat (binVal i))).all isUpperHexDigit = true := by
  have hmap : program.mapM hexRow = some (program.map realRow) :=
    mapM_of_all_eq_some hexRow realRow program (fun i hi => by
      obtain ⟨h1, h2, h3⟩ := h i hi
      unfold hexRow realRow
      rw [parseBin2_of_bits i h1 h2 h3]
      rfl)
  refine ⟨?_, ?_, fun h64 => by omega, ?_⟩
  · rw [convertToHexAndFormat, hmap]
    rfl
  · simp
    omega
  · intro i hi hv
    exact ⟨formatHex4_length (binVal i) hv, formatHex4_all_upperHex (binVal i)⟩

def exProgram : List Str := [str "00101", str "1", str "0"]

theorem c5_witness :
    (exProgram.map realRow ++ List.replicate (64 - exProgram.length) fillRow).length
      = 64 :=
  ((c5_hex_image exProgram (by decide)).2.1).trans (by decide)

/-- Destination bit of a destination literal (`R0` → `0`, `R1` → `1`). -/
def destBit (t : Str) : Str := if t = str "R0" then str "0" else str "1"

lemma destBit_ne_nil (t : Str) : destBit t ≠ [] := by
  unfold destBit
  split <;> simp [str]

lemma processDestination_of_isDestination (t : Str) (h : isDestination t = true) :
    processDestination t = .ok (destBit t) := by
  by_cases h0 : t = str "R0"
  · rw [h0]
    decide
  · have h1 : t = str "R1" := by
      simpa [isDestination, h0] using h
    rw [h1]
    decide

lemma processDestination_of_not_dest (t : Str) (h : isDestination t = false) :
    processDestination t = .error (.invalidDestination t) := by
  have h2 : ¬ t = str "R0" ∧ ¬ t = str "R1" := by
    simpa [isDestination] using h
  simp [processDestination, h2.1, h2.2]

/-- Claim C3: for an instruction line whose mnemonic is in the opcode
table, the operand tokens determine the fields: none → destination `0`
and data eight `0` bits; one → it is the destination (`R0`→`0`,
`R1`→`1`) if it is a destination literal, otherwise the data operand
with destination defaulting to `0`; two → the first must be `R0`/`R1`
(else failure `invalid destination`) and the second is the data operand;
more than two → failure `invalid instruction format`. -/
theorem c3_operand_shapes (opcodes : Opcodes) (tags : Tags) (instr m opc : Str)
    (rest : List Str)
    (hf : fields instr = m :: rest) (hop : opcodes m = some opc) :
    assembleInstruction opcodes tags instr
      = (match rest with
         | [] => .ok (opc ++ str "0" ++ List.replicate 8 '0')
         | [t] =>
           if isDestination t = true then
             .ok (opc ++ destBit t ++ List.replicate 8 '0')
           else (processData t tags).map (fun d => opc ++ str "0" ++ d)
         | [t1, t2] =>
           if isDestination t1 = true then
             (processData t2 tags).map (fun d => opc ++ destBit t1 ++ d)
           else .error (.invalidDestination t1)
         | _ => .error (.invalidFormat (joinSpace (m :: rest)))) := by
  have hmem : ∀ t ∈ fields instr, t ≠ [] := fun t ht => fields_mem_ne_nil instr t ht
  rw [hf] at hmem
  simp only [assembleInstruction, hf, hop]
  rcases rest with _ | ⟨t, _ | ⟨t2, _ | ⟨t3, rest'⟩⟩⟩
  · rfl
  · have ht : t ≠ [] := hmem t (by simp)
    obtain ⟨c, cs, rfl⟩ : ∃ c cs, t = c :: cs := by
      cases t with
      | nil => exact absurd rfl ht
      | cons c cs => exact ⟨c, cs, rfl⟩
    by_cases hd : isDestination (c :: cs) = true
    · rw [show getDestAndData [m, c :: cs]
          = (if isDestination (c :: cs) = true
             then (processDestination (c :: cs)).map (fun d => (d, ([] : Str)))
             else .ok ([], c :: cs)) from rfl,
        if_pos hd, processDestination_of_isDestination _ hd]
      simp [Except.map, destBit_ne_nil, hd]
    · have hd' : isDestination (c :: cs) = false := by simpa using hd
      rw [show getDestAndData [m, c :: cs]
          = (if isDestination (c :: cs) = true
             then (processDestination (c :: cs)).map (fun d => (d, ([] : Str)))
             else .ok ([], c :: cs)) from rfl,
        if_neg (by simp [hd'])]
      cases hp : processData (c :: cs) tags <;> simp [Except.map, hp, hd']
  · have ht2 : t2 ≠ [] := hmem t2 (by simp)
    obtain ⟨c2, cs2, rfl⟩ : ∃ c cs, t2 = c :: cs := by
      cases t2 with
      | nil => exact absurd rfl ht2
      | cons c cs => exact ⟨c, cs, rfl⟩
    by_cases hd : isDestination t = true
    · rw [show getDestAndData [m, t, c2 :: cs2]
          = (processDestination t).map (fun d => (d, c2 :: cs2)) from rfl,
        processDestination_of_isDestination _ hd]
      cases hp : processData (c2 :: cs2) tags <;>
        simp [Except.map, hp, hd, destBit_ne_nil]
    · have hd' : isDestination t = false := by simpa using hd
      rw [show getDestAndData [m, t, c2 :: cs2]
          = (processDestination t).map (fun d => (d, c2 :: cs2)) from rfl,
        processDestination_of_not_dest _ hd']
      simp [Except.map, hd']
  · rfl

theorem c3_witness :
    assembleInstruction exOpcodes (fun _ => none) (str "LOD R1 10")
      = .ok (str "0010100001010") :=
  (c3_operand_shapes exOpcodes (fun _ => none) (str "LOD R1 10") (str "LOD")
    (str "0010") [str "R1", str "10"] (by decide) (by decide)).trans (by decide)

end Lasm
